import Mathlib

/-!
Verification of the cbconsul key-value client core.

This file gives a shallow embedding of the repository's key-value
operation layer and proves or refutes the frozen specification claims
about it.  Embedded modules:

* `_utils.py`  : `camel_to_snake`, `flatdict_to_dict`, `raise_for_status_error`
* `_adapter.py`: `path_join`, request path construction
* `_errors.py` : the error class taxonomy
* `kv.py`      : `Operation` and its factories, `_get_method`,
                 `Operation.params_dict`, `_decode_content`, `Record`,
                 `KV.apply`, `KV.prefixed`

Python strings are Lean `String`s (operated on as `List Char` where a
character scan is needed), Python `None`-able values are `Option`s,
raised exceptions are `Except`/`Option` error results, and Python dicts
are association lists in insertion order.
-/

namespace Cbconsul

/-! ### camel_to_snake (`_utils.py`)

The source applies two `re.sub` passes and then `str.lower()`:

* pass 1: pattern `(.)([A-Z][a-z]+)`, replacement `\1_\2` — any
  non-newline character, followed by an upper-case letter followed by a
  maximal non-empty run of lower-case letters, gets an underscore
  inserted after the first character;
* pass 2: pattern `([a-z0-9])([A-Z])`, replacement `\1_\2`;

both with `re.ASCII`, scanning left to right over non-overlapping
matches.  Pass 1 is written with an explicit fuel argument (the string
length) so that it is structurally recursive and computes by `rfl`. -/

def isAsciiUpper (c : Char) : Bool := 'A' ≤ c && c ≤ 'Z'

def isAsciiLower (c : Char) : Bool := 'a' ≤ c && c ≤ 'z'

def isAsciiDigit (c : Char) : Bool := '0' ≤ c && c ≤ '9'

/-- Python `str.lower()`, restricted to the ASCII range (the only
characters the wire field names contain). -/
def asciiLower (c : Char) : Char :=
  if isAsciiUpper c then Char.ofNat (c.toNat + 32) else c

/-- One left-to-right non-overlapping substitution pass for the regex
`(.)([A-Z][a-z]+)` with replacement `\1_\2`.  `fuel` bounds the scan;
`camel_to_snake` supplies the list length, which suffices because every
step consumes at least one character. -/
def cts1 : Nat → List Char → List Char
  | 0, l => l
  | _ + 1, [] => []
  | _ + 1, [c] => [c]
  | f + 1, c0 :: c1 :: rest =>
    if c0 ≠ '\n' && isAsciiUpper c1 then
      match rest.takeWhile isAsciiLower with
      | [] => c0 :: cts1 f (c1 :: rest)
      | lows => c0 :: '_' :: c1 :: (lows ++ cts1 f (rest.drop lows.length))
    else c0 :: cts1 f (c1 :: rest)

/-- One left-to-right non-overlapping substitution pass for the regex
`([a-z0-9])([A-Z])` with replacement `\1_\2`. -/
def cts2 : List Char → List Char
  | [] => []
  | [c] => [c]
  | c0 :: c1 :: rest =>
    if (isAsciiLower c0 || isAsciiDigit c0) && isAsciiUpper c1 then
      c0 :: '_' :: c1 :: cts2 rest
    else c0 :: cts2 (c1 :: rest)

/-- `_utils.camel_to_snake`: the two regex passes followed by
`str.lower()`. -/
def camel_to_snake (s : String) : String :=
  String.mk ((cts2 (cts1 s.data.length s.data)).map asciiLower)

/-! ### path_join (`_adapter.py`)

`path_join` on a string prepends `"/"` and then runs
`str.replace("//", "/")` — a single left-to-right non-overlapping pass.
On a list it concatenates the per-element results, prepends `"/"` and
runs the same single replacement pass once more.  `Request.__init__`
stores `path_join(paths)` and `KV.apply` passes `paths = ("kv", key)`. -/

/-- Python `str.replace("//", "/")`: a single left-to-right scan over
non-overlapping occurrences — on a match both slashes are consumed and
one is emitted, otherwise the scan advances one character. -/
def replaceDoubleSlash : List Char → List Char
  | [] => []
  | [c] => [c]
  | c :: r :: rest =>
    if c = '/' && r = '/' then '/' :: replaceDoubleSlash rest
    else c :: replaceDoubleSlash (r :: rest)

def pyReplaceDoubleSlash (s : String) : String :=
  String.mk (replaceDoubleSlash s.data)

/-- `_adapter.path_join` applied to a single string. -/
def path_join_str (p : String) : String :=
  pyReplaceDoubleSlash ("/" ++ p)

/-- `_adapter.path_join` applied to a tuple of strings. -/
def path_join (paths : List String) : String :=
  pyReplaceDoubleSlash ("/" ++ String.join (paths.map path_join_str))

/-- The request path a key-value operation is dispatched with:
`KV.apply` builds `Request(method, "kv", key, ...)` and
`Request.__init__` sets `self.path = path_join(paths)`. -/
def kvRequestPath (key : String) : String :=
  path_join ["kv", key]

/-- Whether a character list contains two consecutive slashes. -/
def hasDoubleSlashAux : List Char → Bool
  | [] => false
  | [_] => false
  | c :: r :: rest => (c = '/' && r = '/') || hasDoubleSlashAux (r :: rest)

/-- Whether a string contains the substring `"//"`. -/
def hasDoubleSlash (s : String) : Bool := hasDoubleSlashAux s.data

/-! ### Error taxonomy (`_errors.py` and Python builtins) -/

/-- The exception classes the embedded code can raise: the library's
`ConsulException` subclasses from `_errors.py`, plus the Python builtin
`KeyError` raised by `KV.apply` and the `TypeError` a failed
`Record(**kwargs)` construction raises. -/
inductive PyErr where
  | requestError
  | badRequest
  | forbidden
  | serverError
  | conflictError
  | notFound
  | lockFailure
  | aclDisabled
  | keyError (key : String)
  | typeError
  deriving DecidableEq, Repr

/-- `_utils.raise_for_status_error`: given the response status code and
the `allow_404` flag, the error raised (`none` when nothing is raised).
`httpx.Response.is_client_error` is `400 ≤ code ≤ 499` and
`is_server_error` is `500 ≤ code ≤ 599`. -/
def raise_for_status_error (status : Nat) (allow404 : Bool) : Option PyErr :=
  if 400 ≤ status ∧ status ≤ 499 then
    if status = 400 then some .badRequest
    else if status = 401 then some .aclDisabled
    else if status = 403 then some .forbidden
    else if status = 404 then (if allow404 then none else some .notFound)
    else if status = 409 then some .conflictError
    else some .requestError
  else if 500 ≤ status ∧ status ≤ 599 then some .serverError
  else none

/-! ### Operation (`kv.py`)

`Operation` is a frozen dataclass with field order
`verb, key, value, raw, separator, keys, recurse, index, wait, flags,
cas, acquire, release`; every field after `key` defaults to `None`.
Byte payloads are modeled as `String`s.  The Python `prefix` attribute
of `KV` is named `pfx` here because `prefix` is a reserved word in
Lean. -/

structure Operation where
  verb : String
  key : String
  value : Option String
  raw : Option Bool
  separator : Option String
  keys : Option Bool
  recurse : Option Bool
  index : Option Int
  wait : Option String
  flags : Option Int
  cas : Option Int
  acquire : Option String
  release : Option String
  deriving DecidableEq, Repr

/-- An `Operation` with the given verb and key and every optional field
at its dataclass default `None`. -/
def Operation.base (verb key : String) : Operation :=
  ⟨verb, key, none, none, none, none, none, none, none, none, none, none, none⟩

/-- `Operation.get(key, raw=raw)`. -/
def Operation.get (key : String) (raw : Option Bool) : Operation :=
  { Operation.base "get" key with raw := raw }

/-- `Operation.get_tree(prefix, recurse, separator)`: always
`recurse=True`; `separator` is `""` when the `recurse` argument is true,
else the caller's separator. -/
def Operation.get_tree (pfx : String) (recurse : Bool) (separator : String) : Operation :=
  { Operation.base "get-tree" pfx with
      recurse := some true
      separator := some (if recurse then "" else separator) }

/-- `Operation.list_tree(prefix, recurse, separator)`: sets `keys=True`
and the same separator rule; the source does not set `recurse`. -/
def Operation.list_tree (pfx : String) (recurse : Bool) (separator : String) : Operation :=
  { Operation.base "get-tree" pfx with
      keys := some true
      separator := some (if recurse then "" else separator) }

/-- `Operation.set(key, value, flags)`. -/
def Operation.set (key value : String) (flags : Option Int) : Operation :=
  { Operation.base "set" key with value := some value, flags := flags }

/-- `Operation.set_cas(key, value, index, flags)`: verb `"cas"`,
`cas=index`. -/
def Operation.set_cas (key value : String) (index : Int) (flags : Option Int) : Operation :=
  { Operation.base "cas" key with value := some value, flags := flags, cas := some index }

/-- `Operation.lock(key, value, flags)`: verb `"acquire"`, stores the
UTF-8 encoding of `value` as the payload and `acquire=value`. -/
def Operation.lock (key value : String) (flags : Option Int) : Operation :=
  { Operation.base "acquire" key with value := some value, acquire := some value, flags := flags }

/-- `Operation.unlock(key, value, flags)`: verb `"release"`,
`release=value`. -/
def Operation.unlock (key value : String) (flags : Option Int) : Operation :=
  { Operation.base "release" key with value := some value, release := some value, flags := flags }

/-- `Operation.delete(key)`. -/
def Operation.delete (key : String) : Operation :=
  Operation.base "delete" key

/-- `Operation.delete_cas(key, index=index)`: verb `"delete-cas"`,
`cas=index`. -/
def Operation.delete_cas (key : String) (index : Int) : Operation :=
  { Operation.base "delete-cas" key with cas := some index }

/-- `Operation.delete_tree(prefix)`: verb `"delete-tree"`,
`recurse=True`. -/
def Operation.delete_tree (pfx : String) : Operation :=
  { Operation.base "delete-tree" pfx with recurse := some true }

/-- `kv._get_method`: DELETE for the delete verbs, PUT for
`set`/`cas`/`lock`/`unlock`, GET otherwise. -/
def getMethod (op : Operation) : String :=
  if op.verb ∈ (["delete-cas", "delete-tree", "delete"] : List String) then "DELETE"
  else if op.verb ∈ (["set", "cas", "lock", "unlock"] : List String) then "PUT"
  else "GET"

/-- A query-parameter value (bool, string or integer). -/
inductive ParamVal where
  | b (v : Bool)
  | s (v : String)
  | i (v : Int)
  deriving DecidableEq, Repr

def optParam (name : String) (v : Option ParamVal) : List (String × ParamVal) :=
  match v with
  | some x => [(name, x)]
  | none => []

/-- `Operation.params_dict`: every field except `verb`, `key` and
`value`, in dataclass declaration order, keeping only non-`None`
values. -/
def Operation.params_dict (op : Operation) : List (String × ParamVal) :=
  optParam "raw" (op.raw.map .b) ++
  optParam "separator" (op.separator.map .s) ++
  optParam "keys" (op.keys.map .b) ++
  optParam "recurse" (op.recurse.map .b) ++
  optParam "index" (op.index.map .i) ++
  optParam "wait" (op.wait.map .s) ++
  optParam "flags" (op.flags.map .i) ++
  optParam "cas" (op.cas.map .i) ++
  optParam "acquire" (op.acquire.map .s) ++
  optParam "release" (op.release.map .s)

/-! ### Record and the response decoder (`kv.py`) -/

/-- A JSON field value carried in a key-record mapping. -/
inductive FVal where
  | str (v : String)
  | int (v : Int)
  | bool (v : Bool)
  | null
  deriving DecidableEq, Repr

/-- The `Record` dataclass.  Python dataclasses do not check field
types at construction time, so every field holds an arbitrary wire
value. -/
structure Record where
  key : FVal
  create_index : FVal
  modify_index : FVal
  lock_index : FVal
  flags : FVal
  value : FVal
  session : FVal
  deriving DecidableEq, Repr

def recordFieldNames : List String :=
  ["key", "create_index", "modify_index", "lock_index", "flags", "value", "session"]

/-- Python dict assignment: replace in place when the key is present,
else append. -/
def dictInsert (k : String) (v : FVal) : List (String × FVal) → List (String × FVal)
  | [] => [(k, v)]
  | (k0, v0) :: rest =>
    if k0 = k then (k0, v) :: rest else (k0, v0) :: dictInsert k v rest

/-- The dict comprehension
`{camel_to_snake(k): v for k, v in o.items()}`. -/
def buildKwargs (o : List (String × FVal)) : List (String × FVal) :=
  o.foldl (fun acc kv => dictInsert (camel_to_snake kv.1) kv.2 acc) []

def kwLookup (kw : List (String × FVal)) (name : String) : Option FVal :=
  (kw.find? (fun p => p.1 == name)).map (fun p => p.2)

/-- `Record(**{camel_to_snake(k): v for k, v in o.items()})`: builds a
`Record` from the snake-cased keyword arguments, using the dataclass
defaults (`0` for the index fields and `flags`, `""` for `value` and
`session`); `key` has no default.  Returns `none` (a Python
`TypeError`) when a keyword does not name a field or `key` is
missing. -/
def recordOfMap (o : List (String × FVal)) : Option Record :=
  let kw := buildKwargs o
  if kw.all (fun p => recordFieldNames.contains p.1) then
    match kwLookup kw "key" with
    | some k =>
      some { key := k
             create_index := (kwLookup kw "create_index").getD (.int 0)
             modify_index := (kwLookup kw "modify_index").getD (.int 0)
             lock_index := (kwLookup kw "lock_index").getD (.int 0)
             flags := (kwLookup kw "flags").getD (.int 0)
             value := (kwLookup kw "value").getD (.str "")
             session := (kwLookup kw "session").getD (.str "") }
    | none => none
  else none

/-- An element of a JSON array response body: a plain string, a
key-record mapping, or anything else. -/
inductive Elem where
  | str (s : String)
  | obj (o : List (String × FVal))
  | other
  deriving DecidableEq, Repr

/-- A response body as seen by `_decode_content`. -/
inductive Content where
  | bool (b : Bool)
  | str (s : String)
  | bytes (s : String)
  | arr (xs : List Elem)
  | other
  deriving DecidableEq, Repr

/-- A decoded result. -/
inductive Decoded where
  | bool (b : Bool)
  | str (s : String)
  | bytes (s : String)
  | strList (xs : List String)
  | record (r : Record)
  | recordList (rs : List Record)
  | null
  deriving DecidableEq, Repr

def Elem.isStr : Elem → Bool
  | .str _ => true
  | _ => false

def Elem.isObj : Elem → Bool
  | .obj _ => true
  | _ => false

def Elem.getStr : Elem → Option String
  | .str s => some s
  | _ => none

def Elem.getObj : Elem → Option (List (String × FVal))
  | .obj o => some o
  | _ => none

/-- The list comprehension `[Record(**...) for o in c]`: builds each
record left to right, propagating the first construction failure. -/
def mapOptList {β γ : Type} (f : β → Option γ) : List β → Option (List γ)
  | [] => some []
  | x :: xs =>
    match f x with
    | some y => (mapOptList f xs).map (fun ys => y :: ys)
    | none => none

/-- `kv._decode_content`: bools, strings and bytes pass through; a
sequence of strings becomes a list of strings; a sequence of mappings
becomes a list of `Record`s, unwrapped to the first record for verbs
`get`/`watch` when non-empty (`next(iter(content_list), content_list)`);
anything else decodes to `None`.  A failing `Record` construction is a
raised `TypeError`. -/
def decodeContent (verb : String) : Content → Except PyErr Decoded
  | .bool b => .ok (.bool b)
  | .str s => .ok (.str s)
  | .bytes s => .ok (.bytes s)
  | .arr xs =>
    if xs.all Elem.isStr then
      .ok (.strList (xs.filterMap Elem.getStr))
    else if xs.all Elem.isObj then
      match mapOptList recordOfMap (xs.filterMap Elem.getObj) with
      | some rs =>
        if verb = "get" ∨ verb = "watch" then
          .ok (match rs with
               | [] => .recordList []
               | r :: _ => .record r)
        else .ok (.recordList rs)
      | none => .error .typeError
    else .ok .null
  | .other => .ok .null

/-! ### The KV façade (`kv.py`) -/

/-- The `KV` façade: a transport adapter (abstracted over its type) and
an optional namespace prefix (`_prefix` in the source, `pfx` here). -/
structure KV (α : Type) where
  adapter : α
  pfx : Option String

/-- `KV.prefixed(prefix)`: yields a new façade over the same adapter
whose prefix is exactly the argument. -/
def KV.prefixed {α : Type} (kv : KV α) (p : String) : KV α :=
  { adapter := kv.adapter, pfx := some p }

/-- Python `a or b` on an optional string: `b` when `a` is `None` or
empty (falsy), else `a`. -/
def pyStrOrElse (a : Option String) (b : String) : String :=
  match a with
  | some s => if s = "" then b else s
  | none => b

/-- The key `KV.apply` dispatches: the source line is
`key = self.prefix or "" + op.key`, which by Python operator precedence
is `self.prefix or ("" + op.key)`. -/
def KV.appliedKey {α : Type} (kv : KV α) (op : Operation) : String :=
  pyStrOrElse kv.pfx ("" ++ op.key)

/-- `KV.apply(op, default)`, with the transport abstracted by the
response content it returns (`none` models a 404, whose body the
adapter replaces with `None`): on absent content raise
`KeyError(op.key)` if no default was supplied, else return the default;
otherwise decode the content. -/
def KV.apply {α : Type} (kv : KV α) (op : Operation) (default : Option Decoded)
    (respContent : Option Content) : Except PyErr Decoded :=
  match respContent with
  | none =>
    match default with
    | none => .error (.keyError op.key)
    | some d => .ok d
  | some c => decodeContent op.verb c

/-! ### flatdict_to_dict (`_utils.py`)

The nested result is a tree of Python dicts: every value is either a
leaf (the flat mapping's value type) or a nested dict, modeled as an
association list in insertion order.  `flatdict_to_dict` iterates the
flat entries; for each it walks `setdefault(segment, {})` through all
but the last segment and then assigns the leaf at the last segment.
Walking reaches only freshly created or pre-existing child dicts, so
the structure is a tree without sharing and the in-place mutation is
modeled by rebuilding along the walked path.  A `none` result models
the exception Python raises when `setdefault` or item assignment is
attempted on a non-dict (an earlier leaf on the path), or indexing
`key_tuple[-1]` on an empty tuple. -/

inductive PyVal (κ ν : Type) where
  | leaf (v : ν)
  | dict (entries : List (κ × PyVal κ ν))

def lookupA {κ ν : Type} [DecidableEq κ] (k : κ) :
    List (κ × PyVal κ ν) → Option (PyVal κ ν)
  | [] => none
  | (k0, v0) :: rest => if k0 = k then some v0 else lookupA k rest

/-- Python dict assignment `d[k] = v`: replace in place when present,
append otherwise. -/
def setA {κ ν : Type} [DecidableEq κ] (k : κ) (v : PyVal κ ν) :
    List (κ × PyVal κ ν) → List (κ × PyVal κ ν)
  | [] => [(k, v)]
  | (k0, v0) :: rest =>
    if k0 = k then (k0, v) :: rest else (k0, v0) :: setA k v rest

/-- Insert one flat entry: walk/create intermediate dicts for all but
the last segment (`setdefault(prefix_key, typ())`), then assign the
leaf at the last segment. -/
def insertPath {κ ν : Type} [DecidableEq κ] :
    List κ → PyVal κ ν → ν → Option (PyVal κ ν)
  | [], _, _ => none
  | [k], .dict es, v => some (.dict (setA k (.leaf v) es))
  | [_], .leaf _, _ => none
  | k :: k2 :: rest, .dict es, v =>
    match lookupA k es with
    | some (.dict sub) =>
      (insertPath (k2 :: rest) (.dict sub) v).map (fun t => .dict (setA k t es))
    | some (.leaf _) => none
    | none =>
      (insertPath (k2 :: rest) (.dict ([] : List (κ × PyVal κ ν))) v).map
        (fun t => .dict (es ++ [(k, t)]))
  | _ :: _ :: _, .leaf _, _ => none

/-- `_utils.flatdict_to_dict`, the flat mapping given as its entry list
in iteration (= insertion) order. -/
def flatdict_to_dict {κ ν : Type} [DecidableEq κ] (entries : List (List κ × ν)) :
    Option (PyVal κ ν) :=
  entries.foldl (fun acc e => acc.bind (fun t => insertPath e.1 t e.2))
    (some (.dict []))

/-- The leaf value stored at a segment path, if any. -/
def findLeaf {κ ν : Type} [DecidableEq κ] :
    List κ → PyVal κ ν → Option ν
  | [], .leaf v => some v
  | [], .dict _ => none
  | _ :: _, .leaf _ => none
  | k :: rest, .dict es =>
    match lookupA k es with
    | some t => findLeaf rest t
    | none => none

/-- Whether a segment path addresses an internal (dict) node. -/
def nodeAt {κ ν : Type} [DecidableEq κ] :
    List κ → PyVal κ ν → Bool
  | [], .dict _ => true
  | [], .leaf _ => false
  | _ :: _, .leaf _ => false
  | k :: rest, .dict es =>
    match lookupA k es with
    | some t => nodeAt rest t
    | none => false

/-! ## Claim theorems -/

/-- C1: the spec says a façade with prefix `"svc/"` issuing
`get("config")` dispatches the key `"svc/config"`.  The source line
`key = self.prefix or "" + op.key` parses as
`self.prefix or ("" + op.key)` by Python operator precedence, so a
truthy prefix replaces the operation key entirely: the dispatched key
is `"svc/"`, not `"svc/config"`.  This contradicts the spec's explicit
intent ("prefixes the key with a configured namespace prefix"), so the
code is the slip. -/
theorem c1_prefixed_facade_drops_operation_key :
    (KV.mk () (some "svc/")).appliedKey (Operation.get "config" none) = "svc/" ∧
    "svc/" ≠ "svc/" ++ "config" :=
  ⟨rfl, by decide⟩

/-- C2: the claim says Operations built by `lock` (verb `"acquire"`)
and `unlock` (verb `"release"`) dispatch with PUT.  `_get_method` only
maps the verbs `"lock"`/`"unlock"` — which no factory ever produces —
to PUT, so the lock and unlock Operations actually dispatch with GET.
The delete verbs map to DELETE and `set`/`cas` to PUT as claimed. -/
theorem c2_lock_unlock_dispatch_with_get :
    (Operation.lock "k" "session" none).verb = "acquire" ∧
    (Operation.unlock "k" "session" none).verb = "release" ∧
    getMethod (Operation.lock "k" "session" none) = "GET" ∧
    getMethod (Operation.unlock "k" "session" none) = "GET" ∧
    getMethod (Operation.set "k" "v" none) = "PUT" ∧
    getMethod (Operation.set_cas "k" "v" 1 none) = "PUT" ∧
    getMethod (Operation.delete "k") = "DELETE" ∧
    getMethod (Operation.delete_cas "k" 1) = "DELETE" ∧
    getMethod (Operation.delete_tree "k") = "DELETE" ∧
    getMethod (Operation.get "k" none) = "GET" ∧
    getMethod (Operation.get_tree "k" true "/") = "GET" ∧
    getMethod (Operation.list_tree "k" true "/") = "GET" := by
  decide

/-- C3 counterexample: the claim says an absent result with no default
raises the library's `NotFound`.  `KV.apply` raises the Python builtin
`KeyError(op.key)` instead, which is a different exception class than
`_errors.NotFound`. -/
theorem c3_counterexample_keyerror_not_library_notfound :
    (KV.mk () none).apply (Operation.get "missing" none) none none
      = Except.error (PyErr.keyError "missing") ∧
    PyErr.keyError "missing" ≠ PyErr.notFound :=
  ⟨rfl, by decide⟩

/-- C3 amended: on an absent-value response (content `None`, i.e. a
404) with no default supplied, `apply` raises the builtin
`KeyError` carrying the operation's key (not the library's `NotFound`);
with a default supplied the default is returned; and a present response
body is returned decoded, with no default substitution. -/
theorem c3_apply_absent_default_contract {α : Type} (kv : KV α) (op : Operation)
    (d : Option Decoded) (c : Option Content) :
    (c = none → d = none → kv.apply op d c = Except.error (PyErr.keyError op.key)) ∧
    (∀ dv, c = none → d = some dv → kv.apply op d c = Except.ok dv) ∧
    (∀ cv dv, c = some cv → decodeContent op.verb cv = Except.ok dv →
      kv.apply op d c = Except.ok dv) := by
  refine ⟨?_, ?_, ?_⟩
  · rintro rfl rfl; rfl
  · rintro dv rfl rfl; rfl
  · rintro cv dv rfl hd
    simpa [KV.apply] using hd

/-- C3 witness: `get("missing")` with no default raises
`KeyError("missing")`; with default `"fallback"` it returns
`"fallback"`. -/
theorem c3_apply_absent_default_contract_witness :
    (KV.mk () none).apply (Operation.get "missing" none) none none
      = Except.error (PyErr.keyError "missing") ∧
    (KV.mk () none).apply (Operation.get "missing" none)
      (some (Decoded.str "fallback")) none = Except.ok (Decoded.str "fallback") :=
  ⟨(c3_apply_absent_default_contract (KV.mk () none) (Operation.get "missing" none)
      none none).1 rfl rfl,
    (c3_apply_absent_default_contract (KV.mk () none) (Operation.get "missing" none)
      (some (Decoded.str "fallback")) none).2.1 (Decoded.str "fallback") rfl rfl⟩

/-- C4 counterexample: the claim says the Operations built by *both*
`get_tree` and `list_tree` carry the wire-level recurse flag set to
true.  `list_tree` never sets `recurse`: the field stays `None` and no
`recurse` query parameter is exported. -/
theorem c4_counterexample_list_tree_recurse_unset :
    (Operation.list_tree "a/b" true "/").recurse ≠ some true ∧
    (Operation.list_tree "a/b" true "/").params_dict.filter
      (fun kv => kv.1 == "recurse") = [] := by
  decide

/-- C4 amended: `get_tree` always forces `recurse=true` at the wire
level (the recurse argument never gates it) and `list_tree` sets
`keys=true` and never sets `recurse` at all; both send `separator`
equal to `""` when the recurse argument is true and to the caller's
separator otherwise. -/
theorem c4_tree_factories_wire_flags (pfx sep : String) (r : Bool) :
    (Operation.get_tree pfx r sep).recurse = some true ∧
    (Operation.get_tree pfx r sep).separator = some (if r then "" else sep) ∧
    (Operation.get_tree pfx r sep).keys = none ∧
    (Operation.get_tree pfx r sep).params_dict
      = [("separator", .s (if r then "" else sep)), ("recurse", .b true)] ∧
    (Operation.list_tree pfx r sep).recurse = none ∧
    (Operation.list_tree pfx r sep).separator = some (if r then "" else sep) ∧
    (Operation.list_tree pfx r sep).keys = some true ∧
    (Operation.list_tree pfx r sep).params_dict
      = [("separator", .s (if r then "" else sep)), ("keys", .b true)] :=
  ⟨rfl, rfl, rfl, rfl, rfl, rfl, rfl, rfl⟩

theorem all_isObj_map_obj (os : List (List (String × FVal))) :
    (os.map Elem.obj).all Elem.isObj = true := by
  induction os with
  | nil => rfl
  | cons o os ih => simpa [Elem.isObj] using ih

theorem filterMap_getObj_map_obj (os : List (List (String × FVal))) :
    (os.map Elem.obj).filterMap Elem.getObj = os := by
  induction os with
  | nil => rfl
  | cons o os ih => simpa [Elem.getObj] using ih

/-- The `_decode_content` branch for array bodies, spelled out. -/
theorem decodeContent_arr (verb : String) (xs : List Elem) :
    decodeContent verb (.arr xs) =
      (if xs.all Elem.isStr then .ok (.strList (xs.filterMap Elem.getStr))
       else if xs.all Elem.isObj then
         match mapOptList recordOfMap (xs.filterMap Elem.getObj) with
         | some rs =>
           if verb = "get" ∨ verb = "watch" then
             .ok (match rs with
                  | [] => .recordList []
                  | r :: _ => .record r)
           else .ok (.recordList rs)
         | none => .error .typeError
       else .ok .null) := rfl

/-- Decoding an array of mappings that all convert to records. -/
theorem decodeContent_map_obj (verb : String) (o0 : List (String × FVal))
    (os0 : List (List (String × FVal))) (rs : List Record)
    (hmap : mapOptList recordOfMap (o0 :: os0) = some rs) :
    decodeContent verb (.arr ((o0 :: os0).map Elem.obj)) =
      if verb = "get" ∨ verb = "watch" then
        .ok (match rs with
             | [] => .recordList []
             | r :: _ => .record r)
      else .ok (.recordList rs) := by
  have h1 : ((o0 :: os0).map Elem.obj).all Elem.isStr = false := by
    simp [Elem.isStr]
  have h2 := all_isObj_map_obj (o0 :: os0)
  have h3 := filterMap_getObj_map_obj (o0 :: os0)
  rw [decodeContent_arr, if_neg (by rw [h1]; simp), if_pos h2, h3]
  simp only [hmap]
  cases rs <;> rfl

/-- C5: a response body that is a non-empty sequence of key-record
mappings decodes to the list of `Record`s built from the snake-cased
field names; verbs `get` and `watch` unwrap the first record, every
other verb returns the full list; an empty sequence decodes to the
empty list; and the wire field names translate from CapitalizedWords to
lowercase_with_underscores. -/
theorem c5_decode_record_list_unwraps_get
    (os : List (List (String × FVal))) (rs : List Record) (verb : String)
    (hos : os ≠ []) (hmap : mapOptList recordOfMap os = some rs) :
    (∃ r rest, rs = r :: rest ∧
      decodeContent "get" (.arr (os.map Elem.obj)) = .ok (.record r) ∧
      decodeContent "watch" (.arr (os.map Elem.obj)) = .ok (.record r)) ∧
    (verb ≠ "get" → verb ≠ "watch" →
      decodeContent verb (.arr (os.map Elem.obj)) = .ok (.recordList rs)) ∧
    decodeContent "get" (.arr []) = .ok (.strList []) ∧
    camel_to_snake "Key" = "key" ∧
    camel_to_snake "CreateIndex" = "create_index" ∧
    camel_to_snake "ModifyIndex" = "modify_index" ∧
    camel_to_snake "LockIndex" = "lock_index" ∧
    camel_to_snake "Flags" = "flags" ∧
    camel_to_snake "Value" = "value" ∧
    camel_to_snake "Session" = "session" := by
  obtain ⟨o, os', rfl⟩ := List.exists_cons_of_ne_nil hos
  have hcons : ∃ r rs', rs = r :: rs' := by
    cases hro : recordOfMap o with
    | none => rw [mapOptList, hro] at hmap; exact absurd hmap (by simp)
    | some r =>
      rw [mapOptList, hro, Option.map_eq_some'] at hmap
      obtain ⟨rs', _, h⟩ := hmap
      exact ⟨r, rs', h.symm⟩
  obtain ⟨r, rs', rfl⟩ := hcons
  refine ⟨⟨r, rs', rfl, ?_, ?_⟩, ?_, rfl, by decide, by decide, by decide,
    by decide, by decide, by decide, by decide⟩
  · rw [decodeContent_map_obj "get" o os' (r :: rs') hmap, if_pos (Or.inl rfl)]
  · rw [decodeContent_map_obj "watch" o os' (r :: rs') hmap, if_pos (Or.inr rfl)]
  · intro hv1 hv2
    rw [decodeContent_map_obj verb o os' (r :: rs') hmap,
      if_neg (by simp [hv1, hv2])]

/-- C5 witness: one concrete mapping with wire names `Key` and
`CreateIndex` decodes to the expected record list for `get-tree`. -/
theorem c5_decode_record_list_unwraps_get_witness :
    ([[("Key", FVal.str "k"), ("CreateIndex", FVal.int 5)]] : List (List (String × FVal))) ≠ [] ∧
    decodeContent "get-tree"
        (.arr [Elem.obj [("Key", FVal.str "k"), ("CreateIndex", FVal.int 5)]])
      = .ok (.recordList
          [⟨FVal.str "k", FVal.int 5, FVal.int 0, FVal.int 0, FVal.int 0,
            FVal.str "", FVal.str ""⟩]) :=
  ⟨by decide,
    (c5_decode_record_list_unwraps_get
        [[("Key", FVal.str "k"), ("CreateIndex", FVal.int 5)]]
        [⟨FVal.str "k", FVal.int 5, FVal.int 0, FVal.int 0, FVal.int 0,
          FVal.str "", FVal.str ""⟩]
        "get-tree" (by decide) (by decide)).2.1 (by decide) (by decide)⟩

/-- C6: the status-code check raises exactly the matching error class:
400 BadRequest, 401 ACLDisabled, 403 Forbidden, 409 ConflictError,
every other 4xx except 404 RequestError, every 5xx ServerError, and an
allowed 404 raises nothing. -/
theorem c6_raise_for_status_error_mapping (s : Nat) (a : Bool) :
    raise_for_status_error 400 a = some PyErr.badRequest ∧
    raise_for_status_error 401 a = some PyErr.aclDisabled ∧
    raise_for_status_error 403 a = some PyErr.forbidden ∧
    raise_for_status_error 409 a = some PyErr.conflictError ∧
    raise_for_status_error 404 true = none ∧
    (400 ≤ s → s ≤ 499 → s ≠ 400 → s ≠ 401 → s ≠ 403 → s ≠ 404 → s ≠ 409 →
      raise_for_status_error s a = some PyErr.requestError) ∧
    (500 ≤ s → s ≤ 599 → raise_for_status_error s a = some PyErr.serverError) := by
  refine ⟨rfl, rfl, rfl, rfl, rfl, ?_, ?_⟩
  · intro h1 h2 h3 h4 h5 h6 h7
    unfold raise_for_status_error
    rw [if_pos ⟨h1, h2⟩, if_neg h3, if_neg h4, if_neg h5, if_neg h6, if_neg h7]
  · intro h1 h2
    unfold raise_for_status_error
    rw [if_neg (by omega : ¬(400 ≤ s ∧ s ≤ 499)), if_pos ⟨h1, h2⟩]

/-- C6 witness: the quantified clauses at 418 (teapot, generic 4xx) and
503 (5xx). -/
theorem c6_raise_for_status_error_mapping_witness :
    raise_for_status_error 418 true = some PyErr.requestError ∧
    raise_for_status_error 503 false = some PyErr.serverError :=
  ⟨(c6_raise_for_status_error_mapping 418 true).2.2.2.2.2.1
      (by decide) (by decide) (by decide) (by decide) (by decide) (by decide) (by decide),
    (c6_raise_for_status_error_mapping 503 false).2.2.2.2.2.2 (by decide) (by decide)⟩

theorem replaceDoubleSlash_two_lead (l : List Char) :
    replaceDoubleSlash ('/' :: '/' :: l) = '/' :: replaceDoubleSlash l := by
  simp [replaceDoubleSlash]

theorem replaceDoubleSlash_cons_ne (c : Char) (l : List Char) (hc : c ≠ '/') :
    replaceDoubleSlash (c :: l) = c :: replaceDoubleSlash l := by
  cases l with
  | nil => rfl
  | cons r rest => simp [replaceDoubleSlash, hc]

theorem replaceDoubleSlash_no_double (l : List Char)
    (h : hasDoubleSlashAux l = false) : replaceDoubleSlash l = l := by
  induction l with
  | nil => rfl
  | cons c rest ih =>
    cases rest with
    | nil => rfl
    | cons r rest2 =>
      rw [show hasDoubleSlashAux (c :: r :: rest2)
          = ((c = '/' && r = '/') || hasDoubleSlashAux (r :: rest2)) from rfl,
        Bool.or_eq_false_iff] at h
      rw [show replaceDoubleSlash (c :: r :: rest2)
          = (if c = '/' && r = '/' then '/' :: replaceDoubleSlash rest2
             else c :: replaceDoubleSlash (r :: rest2)) from rfl,
        if_neg (by rw [h.1]; simp), ih h.2]

/-- The request path, in closed form: one replace pass over the
slash-prefixed key, then one replace pass over the whole joined
path. -/
theorem kvRequestPath_shape (l : List Char) :
    kvRequestPath (String.mk l)
      = String.mk ('/' :: 'k' :: 'v' ::
          replaceDoubleSlash (replaceDoubleSlash ('/' :: l))) := by
  have h : kvRequestPath (String.mk l)
      = String.mk (replaceDoubleSlash
          ('/' :: '/' :: 'k' :: 'v' :: replaceDoubleSlash ('/' :: l))) := rfl
  rw [h, replaceDoubleSlash_two_lead,
    replaceDoubleSlash_cons_ne 'k' _ (by decide),
    replaceDoubleSlash_cons_ne 'v' _ (by decide)]

/-- C9 counterexample: the claim says all runs of duplicate slashes are
collapsed to single slashes, including runs of three or more.  A run of
five slashes in the key survives as a duplicate: the path built for key
`"a/////b"` is `"/kv/a//b"`, which still contains `"//"`. -/
theorem c9_counterexample_five_slash_run :
    kvRequestPath "a/////b" = "/kv/a//b" ∧
    hasDoubleSlash (kvRequestPath "a/////b") = true :=
  ⟨rfl, rfl⟩

/-- C9 amended: the path always has a leading slash and equals the
single-pass collapse (Python `str.replace("//", "/")`, one
left-to-right non-overlapping pass per join level) of
`"//kv" + onePass("/" + key)`; consequently for a key with no
consecutive duplicate slashes and no leading slash the path is exactly
`"/kv/" + key`, but longer runs (five or more slashes) can leave a
duplicate slash in the result. -/
theorem c9_kv_request_path_shape (k : String) :
    (kvRequestPath k).data.head? = some '/' ∧
    kvRequestPath k
      = String.mk ('/' :: 'k' :: 'v' ::
          replaceDoubleSlash (replaceDoubleSlash ('/' :: k.data))) ∧
    (hasDoubleSlash k = false → k.data.head? ≠ some '/' →
      kvRequestPath k = "/kv/" ++ k) := by
  obtain ⟨l⟩ := k
  have hsh := kvRequestPath_shape l
  refine ⟨by rw [hsh]; rfl, hsh, ?_⟩
  intro hnd hhd
  have hl : hasDoubleSlashAux ('/' :: l) = false := by
    cases l with
    | nil => rfl
    | cons c rest =>
      have hc : c ≠ '/' := by
        intro hc
        exact hhd (by rw [hc]; rfl)
      have hnd2 : hasDoubleSlashAux (c :: rest) = false := hnd
      rw [show hasDoubleSlashAux ('/' :: c :: rest)
          = (('/' = '/' && c = '/') || hasDoubleSlashAux (c :: rest)) from rfl,
        hnd2]
      simp [hc]
  have h1 : replaceDoubleSlash ('/' :: l) = '/' :: l :=
    replaceDoubleSlash_no_double _ hl
  rw [hsh, h1, h1]
  rfl

/-- C9 witness: a clean key produces exactly `"/kv/" + key`. -/
theorem c9_kv_request_path_shape_witness :
    hasDoubleSlash "a/b" = false ∧
    kvRequestPath "a/b" = "/kv/" ++ "a/b" :=
  ⟨rfl, (c9_kv_request_path_shape "a/b").2.2 rfl (by decide)⟩

/-- C10: `prefixed(p)` yields a new façade over the same adapter whose
prefix is exactly `p` — the current prefix `p0` is not composed with it
— and the original façade's prefix is untouched. -/
theorem c10_prefixed_scoping {α : Type} (kv : KV α) (p0 p : String)
    (h : kv.pfx = some p0) :
    (kv.prefixed p).pfx = some p ∧
    (kv.prefixed p).adapter = kv.adapter ∧
    kv.pfx = some p0 ∧
    (p0 ≠ "" → (kv.prefixed p).pfx ≠ some (p0 ++ p)) := by
  refine ⟨rfl, rfl, h, ?_⟩
  intro hp0 hcon
  have hpp : p = p0 ++ p := by
    have : some p = some (p0 ++ p) := hcon
    exact Option.some.inj this
  have hlen : p.length = p0.length + p.length := by
    calc p.length = (p0 ++ p).length := by rw [← hpp]
    _ = p0.length + p.length := by
        simp [String.length_append]
  have h0 : p0.length = 0 := by omega
  apply hp0
  cases p0 with
  | mk l =>
    cases l with
    | nil => rfl
    | cons c cs => simp [String.length, List.length] at h0

/-- C10 witness: a façade scoped to `"a/"` re-scoped to `"b/"` has
prefix exactly `"b/"`, not `"a/b/"`. -/
theorem c10_prefixed_scoping_witness :
    ((KV.mk () (some "a/")).prefixed "b/").pfx = some "b/" ∧
    ((KV.mk () (some "a/")).prefixed "b/").pfx ≠ some ("a/" ++ "b/") :=
  ⟨(c10_prefixed_scoping (KV.mk () (some "a/")) "a/" "b/" rfl).1,
    (c10_prefixed_scoping (KV.mk () (some "a/")) "a/" "b/" rfl).2.2.2
      (by decide)⟩

/-! ## Folder lemmas (for the flat-to-tree claims) -/

section Folder

variable {κ ν : Type} [DecidableEq κ]

theorem lookupA_setA_self (k : κ) (v : PyVal κ ν) (es : List (κ × PyVal κ ν)) :
    lookupA k (setA k v es) = some v := by
  induction es with
  | nil => simp [setA, lookupA]
  | cons e rest ih =>
    obtain ⟨k0, v0⟩ := e
    by_cases h : k0 = k
    · simp [setA, h, lookupA]
    · simp [setA, h, lookupA, ih]

theorem lookupA_setA_ne (k k2 : κ) (v : PyVal κ ν) (es : List (κ × PyVal κ ν))
    (h : k2 ≠ k) : lookupA k2 (setA k v es) = lookupA k2 es := by
  induction es with
  | nil => simp [setA, lookupA, Ne.symm h]
  | cons e rest ih =>
    obtain ⟨k0, v0⟩ := e
    by_cases h0 : k0 = k
    · subst h0
      have hne : ¬ k0 = k2 := fun hk => h hk.symm
      simp [setA, lookupA, hne]
    · simp [setA, h0, lookupA, ih]

theorem lookupA_append_of_ne (k2 k : κ) (x : PyVal κ ν) (es : List (κ × PyVal κ ν))
    (h : k2 ≠ k) : lookupA k2 (es ++ [(k, x)]) = lookupA k2 es := by
  induction es with
  | nil => simp [lookupA, Ne.symm h]
  | cons e rest ih =>
    obtain ⟨k0, v0⟩ := e
    by_cases h0 : k0 = k2
    · simp [lookupA, h0]
    · simp [lookupA, h0, ih]

theorem lookupA_append_self (k : κ) (x : PyVal κ ν) (es : List (κ × PyVal κ ν))
    (h : lookupA k es = none) : lookupA k (es ++ [(k, x)]) = some x := by
  induction es with
  | nil => simp [lookupA]
  | cons e rest ih =>
    obtain ⟨k0, v0⟩ := e
    by_cases h0 : k0 = k
    · rw [lookupA, if_pos h0] at h
      exact absurd h (by simp)
    · rw [lookupA, if_neg h0] at h
      simp [lookupA, h0, ih h]

theorem findLeaf_cons_some (k : κ) (rest : List κ) (es : List (κ × PyVal κ ν))
    (t : PyVal κ ν) (h : lookupA k es = some t) :
    findLeaf (k :: rest) (PyVal.dict es) = findLeaf rest t := by
  simp [findLeaf, h]

theorem findLeaf_cons_none (k : κ) (rest : List κ) (es : List (κ × PyVal κ ν))
    (h : lookupA k es = none) :
    findLeaf (k :: rest) (PyVal.dict es) = (none : Option ν) := by
  simp [findLeaf, h]

theorem findLeaf_empty (p : List κ) :
    findLeaf p (PyVal.dict ([] : List (κ × PyVal κ ν))) = (none : Option ν) := by
  cases p with
  | nil => rfl
  | cons k rest => exact findLeaf_cons_none k rest [] rfl

theorem nodeAt_cons_some (k : κ) (rest : List κ) (es : List (κ × PyVal κ ν))
    (t : PyVal κ ν) (h : lookupA k es = some t) :
    nodeAt (k :: rest) (PyVal.dict es) = nodeAt rest t := by
  simp [nodeAt, h]

theorem nodeAt_cons_none (k : κ) (rest : List κ) (es : List (κ × PyVal κ ν))
    (h : lookupA k es = none) :
    nodeAt (k :: rest) (PyVal.dict es) = false := by
  simp [nodeAt, h]

theorem nodeAt_empty_eq_true (p : List κ)
    (h : nodeAt p (PyVal.dict ([] : List (κ × PyVal κ ν))) = true) : p = [] := by
  cases p with
  | nil => rfl
  | cons k rest => rw [nodeAt_cons_none k rest [] rfl] at h; exact absurd h (by simp)

theorem insertPath_single (k : κ) (es : List (κ × PyVal κ ν)) (v : ν) :
    insertPath [k] (PyVal.dict es) v = some (PyVal.dict (setA k (PyVal.leaf v) es)) := rfl

theorem insertPath_cons2_some_dict (k a : κ) (q3 : List κ)
    (es sub : List (κ × PyVal κ ν)) (v : ν) (h : lookupA k es = some (PyVal.dict sub)) :
    insertPath (k :: a :: q3) (PyVal.dict es) v
      = (insertPath (a :: q3) (PyVal.dict sub) v).map (fun t => PyVal.dict (setA k t es)) := by
  simp [insertPath, h]

theorem insertPath_cons2_some_leaf (k a : κ) (q3 : List κ)
    (es : List (κ × PyVal κ ν)) (w : ν) (v : ν) (h : lookupA k es = some (PyVal.leaf w)) :
    insertPath (k :: a :: q3) (PyVal.dict es) v = none := by
  simp [insertPath, h]

theorem insertPath_cons2_none (k a : κ) (q3 : List κ)
    (es : List (κ × PyVal κ ν)) (v : ν) (h : lookupA k es = none) :
    insertPath (k :: a :: q3) (PyVal.dict es) v
      = (insertPath (a :: q3) (PyVal.dict ([] : List (κ × PyVal κ ν))) v).map
          (fun t => PyVal.dict (es ++ [(k, t)])) := by
  simp [insertPath, h]

/-- Effect of inserting one flat entry: provided no leaf sits strictly
along the walked path, the insertion succeeds; the leaf lives at
exactly the inserted path, everything under that path is discarded
(the last-segment assignment overwrites whatever was there), all other
paths are untouched, and the only new internal nodes are proper
prefixes of the inserted path. -/
theorem insertPath_spec :
    ∀ (q : List κ) (es : List (κ × PyVal κ ν)) (v : ν), q ≠ [] →
    (∀ p, p <+: q → p ≠ q → p ≠ [] → findLeaf p (PyVal.dict es) = none) →
    ∃ t, insertPath q (PyVal.dict es) v = some t ∧
      (∃ es2, t = PyVal.dict es2) ∧
      (∀ p, findLeaf p t =
        if p = q then some v
        else if q <+: p ∧ p ≠ q then none
        else findLeaf p (PyVal.dict es)) ∧
      (∀ p, nodeAt p t = true →
        nodeAt p (PyVal.dict es) = true ∨ (p <+: q ∧ p ≠ q)) := by
  intro q
  induction q with
  | nil => intro es v hq _; exact absurd rfl hq
  | cons k q2 ih =>
    intro es v _ hpre
    cases q2 with
    | nil =>
      refine ⟨.dict (setA k (.leaf v) es), rfl, ⟨_, rfl⟩, ?_, ?_⟩
      · intro p
        match p with
        | [] =>
          rw [if_neg (by simp), if_neg ?hng]
          case hng =>
            rintro ⟨hpf, -⟩
            exact absurd hpf.length_le (by simp)
          rfl
        | p0 :: ps =>
          by_cases hk : p0 = k
          · subst hk
            rw [findLeaf_cons_some p0 ps _ _ (lookupA_setA_self p0 (.leaf v) es)]
            cases ps with
            | nil => rw [if_pos rfl]; rfl
            | cons a b =>
              have h1 : ¬(p0 :: a :: b = [p0]) := by simp
              have h2 : [p0] <+: p0 :: a :: b := by
                rw [List.cons_prefix_cons]
                exact ⟨rfl, List.nil_prefix⟩
              rw [if_neg h1, if_pos ⟨h2, h1⟩]
              rfl
          · have h1 : ¬(p0 :: ps = [k]) := by simp [hk]
            have h2 : ¬([k] <+: p0 :: ps ∧ p0 :: ps ≠ [k]) := by
              rintro ⟨hpf, -⟩
              rw [List.cons_prefix_cons] at hpf
              exact hk hpf.1.symm
            rw [if_neg h1, if_neg h2]
            cases hlk : lookupA p0 es with
            | some t0 =>
              rw [findLeaf_cons_some p0 ps _ t0 (by rw [lookupA_setA_ne _ _ _ _ hk]; exact hlk),
                findLeaf_cons_some p0 ps _ t0 hlk]
            | none =>
              rw [findLeaf_cons_none p0 ps _ (by rw [lookupA_setA_ne _ _ _ _ hk]; exact hlk),
                findLeaf_cons_none p0 ps _ hlk]
      · intro p hp
        match p with
        | [] => exact Or.inl rfl
        | p0 :: ps =>
          by_cases hk : p0 = k
          · subst hk
            rw [nodeAt_cons_some p0 ps _ _ (lookupA_setA_self p0 (.leaf v) es)] at hp
            exact absurd hp (by cases ps <;> simp [nodeAt])
          · left
            cases hlk : lookupA p0 es with
            | some t0 =>
              rw [nodeAt_cons_some p0 ps _ t0 (by rw [lookupA_setA_ne _ _ _ _ hk]; exact hlk)] at hp
              rw [nodeAt_cons_some p0 ps _ t0 hlk]
              exact hp
            | none =>
              rw [nodeAt_cons_none p0 ps _ (by rw [lookupA_setA_ne _ _ _ _ hk]; exact hlk)] at hp
              exact absurd hp (by simp)
    | cons a q3 =>
      have hQne : ¬([k] = k :: a :: q3) := by simp
      have hk1 : findLeaf [k] (PyVal.dict es) = (none : Option ν) :=
        hpre [k] (by rw [List.cons_prefix_cons]; exact ⟨rfl, List.nil_prefix⟩)
          hQne (by simp)
      cases hlk : lookupA k es with
      | some t0 =>
        cases t0 with
        | leaf w =>
          exfalso
          rw [findLeaf_cons_some k [] es _ hlk] at hk1
          exact absurd hk1 (by simp [findLeaf])
        | dict sub =>
          have hpre2 : ∀ p, p <+: (a :: q3) → p ≠ (a :: q3) → p ≠ [] →
              findLeaf p (PyVal.dict sub) = (none : Option ν) := by
            intro p h1 h2 h3
            have h4 := hpre (k :: p)
              (by rw [List.cons_prefix_cons]; exact ⟨rfl, h1⟩)
              (by simp [h2]) (by simp)
            rw [findLeaf_cons_some k p es _ hlk] at h4
            exact h4
          obtain ⟨t2, ht2, ⟨es2, rfl⟩, hfind, hnode⟩ := ih sub v (by simp) hpre2
          refine ⟨.dict (setA k (.dict es2) es), ?_, ⟨_, rfl⟩, ?_, ?_⟩
          · rw [insertPath_cons2_some_dict k a q3 es sub v hlk, ht2]
            rfl
          · intro p
            match p with
            | [] =>
              rw [if_neg (by simp), if_neg ?hng2]
              case hng2 =>
                rintro ⟨hpf, -⟩
                exact absurd hpf.length_le (by simp)
              rfl
            | p0 :: ps =>
              by_cases hk0 : p0 = k
              · subst hk0
                rw [findLeaf_cons_some p0 ps _ _ (lookupA_setA_self p0 (.dict es2) es),
                  hfind ps]
                have hiff1 : (p0 :: ps = p0 :: a :: q3) ↔ (ps = a :: q3) := by simp
                have hiff2 : (p0 :: a :: q3 <+: p0 :: ps) ↔ (a :: q3 <+: ps) := by
                  rw [List.cons_prefix_cons]
                  simp
                by_cases hps : ps = a :: q3
                · rw [if_pos hps, if_pos (hiff1.mpr hps)]
                · rw [if_neg hps, if_neg (fun h => hps (hiff1.mp h))]
                  by_cases hQps : a :: q3 <+: ps
                  · rw [if_pos ⟨hQps, hps⟩,
                      if_pos ⟨hiff2.mpr hQps, fun h => hps (hiff1.mp h)⟩]
                  · rw [if_neg (fun h => hQps h.1),
                      if_neg (fun h => hQps (hiff2.mp h.1)),
                      findLeaf_cons_some p0 ps es _ hlk]
              · have h1 : ¬(p0 :: ps = k :: a :: q3) := by simp [hk0]
                have h2 : ¬(k :: a :: q3 <+: p0 :: ps ∧ p0 :: ps ≠ k :: a :: q3) := by
                  rintro ⟨hpf, -⟩
                  rw [List.cons_prefix_cons] at hpf
                  exact hk0 hpf.1.symm
                rw [if_neg h1, if_neg h2]
                cases hpl : lookupA p0 es with
                | some t3 =>
                  rw [findLeaf_cons_some p0 ps _ t3
                      (by rw [lookupA_setA_ne _ _ _ _ hk0]; exact hpl),
                    findLeaf_cons_some p0 ps _ t3 hpl]
                | none =>
                  rw [findLeaf_cons_none p0 ps _
                      (by rw [lookupA_setA_ne _ _ _ _ hk0]; exact hpl),
                    findLeaf_cons_none p0 ps _ hpl]
          · intro p hp
            match p with
            | [] => exact Or.inl rfl
            | p0 :: ps =>
              by_cases hk0 : p0 = k
              · subst hk0
                rw [nodeAt_cons_some p0 ps _ _ (lookupA_setA_self p0 (.dict es2) es)] at hp
                rcases hnode ps hp with h | ⟨h1, h2⟩
                · left
                  rw [nodeAt_cons_some p0 ps es _ hlk]
                  exact h
                · right
                  refine ⟨by rw [List.cons_prefix_cons]; exact ⟨rfl, h1⟩, by simp [h2]⟩
              · left
                cases hpl : lookupA p0 es with
                | some t3 =>
                  rw [nodeAt_cons_some p0 ps _ t3
                      (by rw [lookupA_setA_ne _ _ _ _ hk0]; exact hpl)] at hp
                  rw [nodeAt_cons_some p0 ps es _ hpl]
                  exact hp
                | none =>
                  rw [nodeAt_cons_none p0 ps _
                      (by rw [lookupA_setA_ne _ _ _ _ hk0]; exact hpl)] at hp
                  exact absurd hp (by simp)
      | none =>
        have hpre0 : ∀ p, p <+: (a :: q3) → p ≠ (a :: q3) → p ≠ [] →
            findLeaf p (PyVal.dict ([] : List (κ × PyVal κ ν))) = (none : Option ν) :=
          fun p _ _ _ => findLeaf_empty p
        obtain ⟨t2, ht2, ⟨es2, rfl⟩, hfind, hnode⟩ := ih [] v (by simp) hpre0
        refine ⟨.dict (es ++ [(k, .dict es2)]), ?_, ⟨_, rfl⟩, ?_, ?_⟩
        · rw [insertPath_cons2_none k a q3 es v hlk, ht2]
          rfl
        · intro p
          match p with
          | [] =>
            rw [if_neg (by simp), if_neg ?hng3]
            case hng3 =>
              rintro ⟨hpf, -⟩
              exact absurd hpf.length_le (by simp)
            rfl
          | p0 :: ps =>
            by_cases hk0 : p0 = k
            · subst hk0
              rw [findLeaf_cons_some p0 ps _ _ (lookupA_append_self p0 (.dict es2) es hlk),
                hfind ps]
              have hiff1 : (p0 :: ps = p0 :: a :: q3) ↔ (ps = a :: q3) := by simp
              have hiff2 : (p0 :: a :: q3 <+: p0 :: ps) ↔ (a :: q3 <+: ps) := by
                rw [List.cons_prefix_cons]
                simp
              by_cases hps : ps = a :: q3
              · rw [if_pos hps, if_pos (hiff1.mpr hps)]
              · rw [if_neg hps, if_neg (fun h => hps (hiff1.mp h))]
                by_cases hQps : a :: q3 <+: ps
                · rw [if_pos ⟨hQps, hps⟩,
                    if_pos ⟨hiff2.mpr hQps, fun h => hps (hiff1.mp h)⟩]
                · rw [if_neg (fun h => hQps h.1),
                    if_neg (fun h => hQps (hiff2.mp h.1)),
                    findLeaf_empty, findLeaf_cons_none p0 ps es hlk]
            · have h1 : ¬(p0 :: ps = k :: a :: q3) := by simp [hk0]
              have h2 : ¬(k :: a :: q3 <+: p0 :: ps ∧ p0 :: ps ≠ k :: a :: q3) := by
                rintro ⟨hpf, -⟩
                rw [List.cons_prefix_cons] at hpf
                exact hk0 hpf.1.symm
              rw [if_neg h1, if_neg h2]
              cases hpl : lookupA p0 es with
              | some t3 =>
                rw [findLeaf_cons_some p0 ps _ t3
                    (by rw [lookupA_append_of_ne _ _ _ _ hk0]; exact hpl),
                  findLeaf_cons_some p0 ps _ t3 hpl]
              | none =>
                rw [findLeaf_cons_none p0 ps _
                    (by rw [lookupA_append_of_ne _ _ _ _ hk0]; exact hpl),
                  findLeaf_cons_none p0 ps _ hpl]
        · intro p hp
          match p with
          | [] => exact Or.inl rfl
          | p0 :: ps =>
            by_cases hk0 : p0 = k
            · subst hk0
              rw [nodeAt_cons_some p0 ps _ _ (lookupA_append_self p0 (.dict es2) es hlk)] at hp
              rcases hnode ps hp with h | ⟨h1, h2⟩
              · right
                have hps : ps = [] := nodeAt_empty_eq_true ps h
                subst hps
                refine ⟨by rw [List.cons_prefix_cons]; exact ⟨rfl, List.nil_prefix⟩, by simp⟩
              · right
                refine ⟨by rw [List.cons_prefix_cons]; exact ⟨rfl, h1⟩, by simp [h2]⟩
            · left
              cases hpl : lookupA p0 es with
              | some t3 =>
                rw [nodeAt_cons_some p0 ps _ t3
                    (by rw [lookupA_append_of_ne _ _ _ _ hk0]; exact hpl)] at hp
                rw [nodeAt_cons_some p0 ps es _ hpl]
                exact hp
              | none =>
                rw [nodeAt_cons_none p0 ps _
                    (by rw [lookupA_append_of_ne _ _ _ _ hk0]; exact hpl)] at hp
                exact absurd hp (by simp)

/-- Walking an entry whose path strictly extends the path of an
already-stored leaf raises: `setdefault`/item assignment on the leaf
value is not a dict operation. -/
theorem insertPath_hits_leaf :
    ∀ (p : List κ) (t : PyVal κ ν) (q : List κ) (v w : ν),
    p ≠ [] → q ≠ [] → findLeaf p t = some w → insertPath (p ++ q) t v = none := by
  intro p
  induction p with
  | nil => intro t q v w hp _ _; exact absurd rfl hp
  | cons k p2 ih =>
    intro t q v w _ hq hfl
    cases t with
    | leaf u =>
      rw [show findLeaf (k :: p2) (PyVal.leaf u) = none from rfl] at hfl
      exact absurd hfl (by simp)
    | dict es =>
      cases hlk : lookupA k es with
      | none =>
        rw [findLeaf_cons_none _ _ _ hlk] at hfl
        exact absurd hfl (by simp)
      | some t0 =>
        rw [findLeaf_cons_some _ _ _ _ hlk] at hfl
        cases p2 with
        | nil =>
          cases t0 with
          | dict sub =>
            rw [show findLeaf ([] : List κ) (PyVal.dict sub) = none from rfl] at hfl
            exact absurd hfl (by simp)
          | leaf u =>
            obtain ⟨a, q2, rfl⟩ := List.exists_cons_of_ne_nil hq
            exact insertPath_cons2_some_leaf k a q2 es u v hlk
        | cons b p3 =>
          cases t0 with
          | leaf u =>
            rw [show findLeaf (b :: p3) (PyVal.leaf u) = none from rfl] at hfl
            exact absurd hfl (by simp)
          | dict sub =>
            rw [show (k :: b :: p3) ++ q = k :: b :: (p3 ++ q) from rfl,
              insertPath_cons2_some_dict k b (p3 ++ q) es sub v hlk]
            have hrec := ih (PyVal.dict sub) q v w (by simp) hq hfl
            rw [show (b :: p3) ++ q = b :: (p3 ++ q) from rfl] at hrec
            rw [hrec]
            rfl

/-- The claim's hypotheses on a flat mapping: every segment tuple is
non-empty and no tuple is a prefix of another (this combines key
distinctness — a dict cannot hold the same tuple twice — with the
no-proper-prefix requirement). -/
def flatNoConflict (entries : List (List κ × ν)) : Prop :=
  (∀ e ∈ entries, e.1 ≠ []) ∧
  entries.Pairwise (fun a b => ¬ a.1 <+: b.1 ∧ ¬ b.1 <+: a.1)

/-- The fold invariant: the tree built so far is a dict holding exactly
the processed entries as leaves, and its internal nodes are exactly the
proper prefixes of processed paths (plus the root). -/
def flatInv (t : PyVal κ ν) (m : List (List κ × ν)) : Prop :=
  (∃ es, t = PyVal.dict es) ∧
  (∀ p w, findLeaf p t = some w ↔ (p, w) ∈ m) ∧
  (∀ p, nodeAt p t = true → p = [] ∨ ∃ e ∈ m, p <+: e.1 ∧ p ≠ e.1)

theorem fold_inv :
    ∀ (rest S : List (List κ × ν)) (t : PyVal κ ν),
    flatNoConflict (S ++ rest) → flatInv t S →
    ∃ t2, rest.foldl (fun acc e => acc.bind (fun u => insertPath e.1 u e.2)) (some t)
        = some t2 ∧
      flatInv t2 (S ++ rest) := by
  intro rest
  induction rest with
  | nil =>
    intro S t _ hinv
    exact ⟨t, rfl, by simpa using hinv⟩
  | cons e rest2 ih =>
    intro S t hnc hinv
    obtain ⟨q, v⟩ := e
    obtain ⟨⟨es, rfl⟩, hiff, hnode⟩ := hinv
    have hqne : q ≠ [] := hnc.1 (q, v) (by simp)
    have hpw := hnc.2
    rw [List.pairwise_append] at hpw
    obtain ⟨hpwS, hpwR, hcross⟩ := hpw
    have hSq : ∀ e2 ∈ S, ¬ e2.1 <+: q ∧ ¬ q <+: e2.1 :=
      fun e2 he2 => hcross e2 he2 (q, v) (by simp)
    have hpre : ∀ p, p <+: q → p ≠ q → p ≠ [] →
        findLeaf p (PyVal.dict es) = (none : Option ν) := by
      intro p h1 _ _
      cases hfl : findLeaf p (PyVal.dict es) with
      | none => rfl
      | some w =>
        exact absurd h1 (hSq (p, w) ((hiff p w).mp hfl)).1
    obtain ⟨t2, ht2, hdict2, hfind2, hnode2⟩ := insertPath_spec q es v hqne hpre
    have hqS : ∀ w, (q, w) ∉ S :=
      fun w hw => (hSq (q, w) hw).1 (List.prefix_refl q)
    have hinv2 : flatInv t2 (S ++ [(q, v)]) := by
      refine ⟨hdict2, ?_, ?_⟩
      · intro p w
        rw [hfind2 p]
        by_cases hpq : p = q
        · subst hpq
          rw [if_pos rfl]
          constructor
          · intro h
            have hvw : w = v := (Option.some.inj h).symm
            subst hvw
            simp
          · intro h
            rcases List.mem_append.mp h with h1 | h1
            · exact absurd h1 (hqS w)
            · have hvw : w = v := by simpa using h1
              subst hvw
              rfl
        · by_cases hqpf : q <+: p
          · rw [if_neg hpq, if_pos ⟨hqpf, hpq⟩]
            constructor
            · intro h; exact absurd h (by simp)
            · intro h
              exfalso
              rcases List.mem_append.mp h with h1 | h1
              · exact (hSq (p, w) h1).2 hqpf
              · have hpq2 : p = q := by
                  have := List.mem_singleton.mp h1
                  simpa using congrArg Prod.fst this
                exact hpq hpq2
          · rw [if_neg hpq, if_neg (fun hc => hqpf hc.1), hiff p w]
            constructor
            · intro h; exact List.mem_append.mpr (Or.inl h)
            · intro h
              rcases List.mem_append.mp h with h1 | h1
              · exact h1
              · exfalso
                have hpq2 : p = q := by
                  have := List.mem_singleton.mp h1
                  simpa using congrArg Prod.fst this
                exact hpq hpq2
      · intro p hp
        rcases hnode2 p hp with h | ⟨h1, h2⟩
        · rcases hnode p h with h3 | ⟨e2, he2, h4, h5⟩
          · exact Or.inl h3
          · exact Or.inr ⟨e2, List.mem_append.mpr (Or.inl he2), h4, h5⟩
        · exact Or.inr ⟨(q, v), List.mem_append.mpr (Or.inr (by simp)), h1, h2⟩
    have hnc2 : flatNoConflict ((S ++ [(q, v)]) ++ rest2) := by
      have he : (S ++ [(q, v)]) ++ rest2 = S ++ (q, v) :: rest2 := by simp
      rw [he]
      exact hnc
    obtain ⟨t3, ht3, hinv3⟩ := ih (S ++ [(q, v)]) t2 hnc2 hinv2
    refine ⟨t3, ?_, ?_⟩
    · rw [List.foldl_cons]
      have hstep : (some (PyVal.dict es)).bind
          (fun u => insertPath (q, v).1 u (q, v).2) = some t2 := by
        simpa using ht2
      rw [hstep]
      exact ht3
    · have he : S ++ (q, v) :: rest2 = (S ++ [(q, v)]) ++ rest2 := by simp
      rw [he]
      exact hinv3

/-- C7: folding a flat mapping whose segment tuples are non-empty and
mutually prefix-free succeeds and produces the nested mapping whose
leaves are exactly the entries, each at the position named by its
tuple; the result, read as a path-to-leaf mapping, does not depend on
the iteration order of the entries. -/
theorem c7_flatdict_to_dict_characterization
    (entries entriesP : List (List κ × ν))
    (hne : ∀ e ∈ entries, e.1 ≠ [])
    (hpw : entries.Pairwise (fun a b => ¬ a.1 <+: b.1 ∧ ¬ b.1 <+: a.1))
    (hperm : entries.Perm entriesP) :
    ∃ t tP, flatdict_to_dict entries = some t ∧
      flatdict_to_dict entriesP = some tP ∧
      (∀ p w, findLeaf p t = some w ↔ (p, w) ∈ entries) ∧
      (∀ p, findLeaf p tP = findLeaf p t) := by
  have hinv0 : flatInv (PyVal.dict ([] : List (κ × PyVal κ ν)))
      ([] : List (List κ × ν)) := by
    refine ⟨⟨[], rfl⟩, ?_, ?_⟩
    · intro p w
      rw [findLeaf_empty]
      simp
    · intro p hp
      exact Or.inl (nodeAt_empty_eq_true p hp)
  have hncP : flatNoConflict entriesP := by
    constructor
    · intro e he
      exact hne e (hperm.mem_iff.mpr he)
    · exact (hperm.pairwise_iff (fun h => ⟨h.2, h.1⟩)).mp hpw
  obtain ⟨t, ht, hinv⟩ := fold_inv entries [] (PyVal.dict [])
    (by rw [List.nil_append]; exact ⟨hne, hpw⟩) hinv0
  obtain ⟨tP, htP, hinvP⟩ := fold_inv entriesP [] (PyVal.dict [])
    (by rw [List.nil_append]; exact hncP) hinv0
  have hiff : ∀ p w, findLeaf p t = some w ↔ (p, w) ∈ entries := by
    intro p w
    have := hinv.2.1 p w
    simpa using this
  have hiffP : ∀ p w, findLeaf p tP = some w ↔ (p, w) ∈ entriesP := by
    intro p w
    have := hinvP.2.1 p w
    simpa using this
  refine ⟨t, tP, ht, htP, hiff, ?_⟩
  intro p
  cases hfl : findLeaf p t with
  | some w =>
    exact (hiffP p w).mpr (hperm.mem_iff.mp ((hiff p w).mp hfl))
  | none =>
    cases hflP : findLeaf p tP with
    | none => rfl
    | some w =>
      have : (p, w) ∈ entries := hperm.mem_iff.mpr ((hiffP p w).mp hflP)
      rw [(hiff p w).mpr this] at hfl
      exact absurd hfl (by simp)

/-- C8 counterexample: the claim says a flat mapping in which one tuple
is a proper prefix of another raises regardless of encounter order.
When the longer entry comes first, the shorter entry's leaf silently
overwrites the subtree: folding `x.y = 2` then `x = 1` returns the
dict mapping `x` to the leaf `1` with no error. -/
theorem c8_counterexample_silent_overwrite :
    (flatdict_to_dict [(["x", "y"], "2"), (["x"], "1")] : Option (PyVal String String))
      = some (.dict [("x", .leaf "1")]) := rfl

/-- C8 amended: a prefix conflict raises only when the shorter (leaf)
entry is encountered first — walking the longer path then hits the
stored leaf.  In the opposite order the shorter entry's last-segment
assignment silently replaces the existing subtree with its leaf, so no
error is raised and the longer entry's leaf is gone. -/
theorem c8_prefix_conflict_order_dependent (p q : List κ) (v1 v2 : ν)
    (hp : p ≠ []) (hq : q ≠ []) :
    flatdict_to_dict [(p, v1), (p ++ q, v2)] = none ∧
    (∃ t, flatdict_to_dict [(p ++ q, v2), (p, v1)] = some t ∧
      findLeaf p t = some v1 ∧ findLeaf (p ++ q) t = none) := by
  constructor
  · obtain ⟨t1, ht1, ⟨es1, rfl⟩, hfind1, -⟩ :=
      insertPath_spec p [] v1 hp (fun r _ _ _ => findLeaf_empty r)
    have hleaf : findLeaf p (PyVal.dict es1) = some v1 := by
      rw [hfind1 p, if_pos rfl]
    have hnone := insertPath_hits_leaf p (PyVal.dict es1) q v2 v1 hp hq hleaf
    simp [flatdict_to_dict, ht1, hnone]
  · have hpq : p ++ q ≠ [] := by simp [hp]
    obtain ⟨t1, ht1, ⟨es1, rfl⟩, hfind1, -⟩ :=
      insertPath_spec (p ++ q) [] v2 hpq (fun r _ _ _ => findLeaf_empty r)
    have hpre1 : ∀ r, r <+: p → r ≠ p → r ≠ [] →
        findLeaf r (PyVal.dict es1) = (none : Option ν) := by
      intro r h1 h2 _
      have hrlen : r.length < p.length := by
        rcases Nat.eq_or_lt_of_le h1.length_le with h | h
        · exact absurd (h1.eq_of_length h) h2
        · exact h
      have hne1 : r ≠ p ++ q := by
        intro hcon
        rw [hcon, List.length_append] at hrlen
        omega
      have hne2 : ¬(p ++ q <+: r ∧ r ≠ p ++ q) := by
        rintro ⟨hpf, -⟩
        have := hpf.length_le
        rw [List.length_append] at this
        omega
      rw [hfind1 r, if_neg hne1, if_neg hne2, findLeaf_empty]
    obtain ⟨t2, ht2, ⟨es2, rfl⟩, hfind2, -⟩ := insertPath_spec p es1 v1 hp hpre1
    have hne3 : p ++ q ≠ p := by
      intro hcon
      have hlen := congrArg List.length hcon
      rw [List.length_append] at hlen
      have hq0 : q.length = 0 := by omega
      exact hq (List.length_eq_zero.mp hq0)
    refine ⟨PyVal.dict es2, ?_, ?_, ?_⟩
    · simp [flatdict_to_dict, ht1, ht2]
    · rw [hfind2 p, if_pos rfl]
    · rw [hfind2 (p ++ q), if_neg hne3, if_pos ⟨List.prefix_append p q, hne3⟩]

/-- C8 witness: with segments `x` and `x.y`, leaf-first raises while
longer-first silently keeps only the leaf `1` at `x`. -/
theorem c8_prefix_conflict_order_dependent_witness :
    (["x"] : List String) ≠ [] ∧
    (flatdict_to_dict [(["x"], "1"), (["x"] ++ ["y"], "2")]
        : Option (PyVal String String)) = none :=
  ⟨by decide,
    (c8_prefix_conflict_order_dependent ["x"] ["y"] "1" "2"
      (by decide) (by decide)).1⟩

end Folder

/-- C7 witness: the spec's round-trip example, in both iteration
orders. -/
theorem c7_flatdict_to_dict_characterization_witness :
    (∃ t tP, (flatdict_to_dict [(["x", "y"], "1"), (["x", "z"], "2")]
        : Option (PyVal String String)) = some t ∧
      flatdict_to_dict [(["x", "z"], "2"), (["x", "y"], "1")] = some tP ∧
      (∀ p w, findLeaf p t = some w ↔ (p, w) ∈ [(["x", "y"], "1"), (["x", "z"], "2")]) ∧
      (∀ p, findLeaf p tP = findLeaf p t)) ∧
    (flatdict_to_dict [(["x", "y"], "1"), (["x", "z"], "2")]
        : Option (PyVal String String))
      = some (.dict [("x", .dict [("y", .leaf "1"), ("z", .leaf "2")])]) :=
  ⟨c7_flatdict_to_dict_characterization
      [(["x", "y"], "1"), (["x", "z"], "2")]
      [(["x", "z"], "2"), (["x", "y"], "1")]
      (by decide) (by decide) (List.Perm.swap _ _ _),
    rfl⟩

end Cbconsul
